import Mathlib

/-!
Verification of the coordinate-translation and slicing layer of tilesegy.

The development shallowly embeds the code of `src/tilesegy/indexables.py` and
`src/tilesegy/api.py`: Python integers become `Int`, Python `range` /
`slice.indices` are reproduced exactly (including negative-index wrapping and
clamping), fallible operations return `Except`.  Definitions keep the source
names where Lean allows it.
-/

set_option maxHeartbeats 1000000

/-! ## Definitions: the embedded data model and operations -/

/-- Fuel-driven helper for `intRangeUp`; the fuel only has to dominate the
number of produced elements, so the top-level wrapper can pass
`(stop - start).toNat`. -/
def intRangeUpAux : Nat → Int → Int → Int → List Int
  | 0, _, _, _ => []
  | fuel + 1, start, stop, step =>
    if 0 < step ∧ start < stop then
      start :: intRangeUpAux fuel (start + step) stop step
    else
      []

/-- Python `range(start, stop, step)` for a positive step: the list
`[start, start+step, ...]` of values below `stop`. -/
def intRangeUp (start stop step : Int) : List Int :=
  intRangeUpAux (stop - start).toNat start stop step

/-- Fuel-driven helper for `intRangeDown`. -/
def intRangeDownAux : Nat → Int → Int → Int → List Int
  | 0, _, _, _ => []
  | fuel + 1, start, stop, step =>
    if step < 0 ∧ stop < start then
      start :: intRangeDownAux fuel (start + step) stop step
    else
      []

/-- Python `range(start, stop, step)` for a negative step: the list
`[start, start+step, ...]` of values above `stop`. -/
def intRangeDown (start stop step : Int) : List Int :=
  intRangeDownAux (start - stop).toNat start stop step

/-- Python `range(start, stop, step)` (empty for step 0, which `range` itself
would reject; the callers below never produce step 0 ranges). -/
def intRange (start stop step : Int) : List Int :=
  if 0 < step then intRangeUp start stop step
  else if step < 0 then intRangeDown start stop step
  else []

/-- Python `slice(start, stop, step).indices(length)`: validates the step and
the length, then resolves missing bounds and wraps/clamps negative or
out-of-range bounds, exactly as CPython does. -/
def pySliceIndices (ostart ostop ostep : Option Int) (length : Int) :
    Except String (Int × Int × Int) :=
  if ostep = some 0 then .error ("slice step cannot be zero")
  else if length < 0 then .error ("length should not be negative")
  else
    let step := ostep.getD 1
    let lower : Int := if step < 0 then -1 else 0
    let upper : Int := if step < 0 then length - 1 else length
    let start :=
      match ostart with
      | none => if step < 0 then upper else lower
      | some v => if v < 0 then max (v + length) lower else min v upper
    let stop :=
      match ostop with
      | none => if step < 0 then lower else upper
      | some v => if v < 0 then max (v + length) lower else min v upper
    .ok (start, stop, step)

/-- An index as accepted by the components: a single integer or a slice
`start:stop:step` with optional parts (`Index = Union[int, slice]`). -/
inductive PyIndex where
  | int (i : Int)
  | slice (start stop step : Option Int)

/-- Minimum of a list of integers (Python `min`; the `[]` case is never used
on the only call path, which guards non-emptiness). -/
def listMin : List Int → Int
  | [] => 0
  | x :: xs => xs.foldl min x

/-- Maximum of a list of integers (Python `max`). -/
def listMax : List Int → Int
  | [] => 0
  | x :: xs => xs.foldl max x

/-- `FilteredRange(members)` from `indexables.py`: a non-empty collection of
integer labels together with the invariant Python's `min`/`max` calls in
`__init__` rely on.  `members` keeps the supplied collection; `min`, `max`
and membership only depend on its set of elements, as in the source where
`members = set(members)`. -/
structure FilteredRange where
  members : List Int
  nonempty : members ≠ []

/-- The `_min_val` attribute computed by `FilteredRange.__init__`. -/
def FilteredRange.minVal (fr : FilteredRange) : Int := listMin fr.members

/-- The `_max_val` attribute computed by `FilteredRange.__init__`
(`max(members) + 1`). -/
def FilteredRange.maxVal (fr : FilteredRange) : Int := listMax fr.members + 1

/-- `FilteredRange.__init__` as a fallible constructor: Python's
`min(set(members))` raises `ValueError` on an empty collection, modelled by
`none`. -/
def FilteredRange.init (members : List Int) : Option FilteredRange :=
  if h : members = [] then none else some ⟨members, h⟩

/-- `FilteredRange.__getitem__` from `indexables.py`, line for line: a scalar
`i` becomes `slice(i, i+1)`; for an increasing (or missing) step a missing or
too-small `start` defaults to `min(members)`; otherwise a missing or
too-small `stop` defaults to `min(members)-1`; the slice is then normalized
by `slice(...).indices(self._max_val)` and the resulting range is filtered by
set membership. -/
def FilteredRange.getitem (fr : FilteredRange) (idx : PyIndex) :
    Except String (List Int) :=
  let t : Option Int × Option Int × Option Int :=
    match idx with
    | .int n => (some n, some (n + 1), none)
    | .slice a b c => (a, b, c)
  let ostart := t.1
  let ostop := t.2.1
  let ostep := t.2.2
  let minv := fr.minVal
  let incr : Bool := match ostep with | none => true | some v => decide (0 < v)
  let ostart1 :=
    if incr then
      some (match ostart with
            | none => minv
            | some v => if v < minv then minv else v)
    else ostart
  let ostop1 :=
    if incr then ostop
    else
      some (match ostop with
            | none => minv - 1
            | some v => if v < minv - 1 then minv - 1 else v)
  match pySliceIndices ostart1 ostop1 ostep fr.maxVal with
  | .error e => .error e
  | .ok (start, stop, step) =>
      .ok ((intRange start stop step).filter (fun x => fr.members.contains x))

/-- A concrete `FilteredRange` over the label set `{5, 3, 9}` used by the
spec's scenarios. -/
def frDemo : FilteredRange := ⟨[5, 3, 9], by decide⟩

/-- True when the range step is positive or unspecified (spec wording for the
start-defaulting rule). -/
def stepPosOrNone : Option Int → Bool
  | none => true
  | some v => decide (0 < v)

/-- True when the range step is negative (spec wording for the
stop-defaulting rule). -/
def stepNeg : Option Int → Bool
  | none => false
  | some v => decide (v < 0)

/-- True when a bound is unspecified or less than the given cutoff (spec
wording for both defaulting rules). -/
def boundNoneOrLt (o : Option Int) (cutoff : Int) : Bool :=
  match o with
  | none => true
  | some v => decide (v < cutoff)

/-- The range-lookup procedure exactly as C4 words it, written independently
of the source for the refinement comparison: default `start` to
`min(members)` when the step is positive or unspecified and `start` is
unspecified or smaller; default `stop` to `min(members) - 1` when the step is
negative and `stop` is unspecified or smaller; normalize against the
exclusive upper bound `max(members) + 1` with standard slice-normalization
rules; return the membership-filtered traversal of the normalized range in
range order. -/
def specRangeLookup (fr : FilteredRange) (ostart ostop ostep : Option Int) :
    Except String (List Int) :=
  let minv := fr.minVal
  let ostart1 :=
    if stepPosOrNone ostep && boundNoneOrLt ostart minv then some minv else ostart
  let ostop1 :=
    if stepNeg ostep && boundNoneOrLt ostop (minv - 1) then some (minv - 1)
    else ostop
  match pySliceIndices ostart1 ostop1 ostep fr.maxVal with
  | .error e => .error e
  | .ok (x, y, z) =>
      .ok ((intRange x y z).filter (fun v => fr.members.contains v))

/-- Modelled from the spec: `Lines.__getitem__` is missing from `src/` (the
`Lines` class there defines only `indexes` and `__len__`), so the
label-resolution step of spec section 4.5 is modelled here: indexing by a
line label (`int`) or a range of line labels resolves through a
`FilteredRange` built from `Lines.indexes` to the underlying dense-array
position of each matching label (its position in the label sequence), then
issues the read fixing the designated axis to those positions; `row p`
stands for the dense-array row at position `p`. -/
def linesLabelGet {α : Type} (labels : List Int) (hne : labels ≠ [])
    (row : Nat → α) (idx : PyIndex) : Except String (List α) :=
  match FilteredRange.getitem ⟨labels, hne⟩ idx with
  | .error e => .error e
  | .ok ls => .ok (ls.map (fun l => row (labels.indexOf l)))

/-- Result of a read against the backing dense array: a 0-D scalar, a 1-D
vector, or a 2-D matrix. -/
inductive NDRead where
  | scalar (v : Int)
  | vec (v : List Int)
  | mat (m : List (List Int))

/-- A dense 2-D numeric array (trace axis × sample axis) of the backing
store. -/
structure DenseArray2 where
  rows : List (List Int)

/-- Python scalar index resolution against an axis of the given length:
negative indices wrap once; anything still outside `[0, length)` is an
out-of-range error. -/
def pyScalarPos (length i : Int) : Except String Int :=
  let j := if i < 0 then i + length else i
  if 0 ≤ j ∧ j < length then .ok j else .error ("IndexError: index out of range")

/-- Python slice resolution against an axis of the given length: the
positions of `range(*slice.indices(length))`. -/
def pySlicePositions (length : Int) (a b c : Option Int) :
    Except String (List Int) :=
  match pySliceIndices a b c length with
  | .error e => .error e
  | .ok (x, y, z) => .ok (intRange x y z)

/-- Modelled from the spec: the backing dense array's native 2-D slicing
(the storage engine `handle[index]` of spec section 6, to which
`Traces.__getitem__` delegates), with conventional shape-reduction
semantics (spec section 4.4): one dimension is reduced per scalar index and
kept per range index. -/
def denseRead2 (arr : DenseArray2) (i x : PyIndex) : Except String NDRead :=
  let nt : Int := arr.rows.length
  let ns : Int := (arr.rows.headD []).length
  match i, x with
  | .int ti, .int si => do
    let tp ← pyScalarPos nt ti
    let sp ← pyScalarPos ns si
    .ok (.scalar ((arr.rows.getD tp.toNat []).getD sp.toNat 0))
  | .int ti, .slice d e f => do
    let tp ← pyScalarPos nt ti
    let sps ← pySlicePositions ns d e f
    .ok (.vec (sps.map (fun q => (arr.rows.getD tp.toNat []).getD q.toNat 0)))
  | .slice a b c, .int si => do
    let tps ← pySlicePositions nt a b c
    let sp ← pyScalarPos ns si
    .ok (.vec (tps.map (fun p => (arr.rows.getD p.toNat []).getD sp.toNat 0)))
  | .slice a b c, .slice d e f => do
    let tps ← pySlicePositions nt a b c
    let sps ← pySlicePositions ns d e f
    .ok (.mat (tps.map (fun p =>
      sps.map (fun q => (arr.rows.getD p.toNat []).getD q.toNat 0))))

/-- The backing header array (spec section 6): a fixed ordered list of named
integer fields and one record per trace, each record holding the field
values in declared field order. -/
structure HeaderArray where
  fields : List String
  rows : List (List Int)

/-- Modelled from the spec: the storage engine's single-trace read
`handle[i]` on the header array returns that trace's record as ordered
field-name/value pairs in declared field order. -/
def tdbHeaderRecord (h : HeaderArray) (p : Nat) : List (String × Int) :=
  h.fields.zip (h.rows.getD p [])

/-- Modelled from the spec: the storage engine's sliced read `handle[i:j]`
on the header array returns, per field in declared order, the column of that
field's values at the selected trace positions. -/
def tdbHeaderColumns (h : HeaderArray) (ps : List Int) :
    List (String × List Int) :=
  h.fields.mapIdx
    (fun j name => (name, ps.map (fun p => (h.rows.getD p.toNat []).getD j 0)))

/-- Python `zip(*columns)`: the truncating transpose, as `zip` stops at the
shortest column (and `zip()` of no columns is empty). -/
def zipStar (cols : List (List Int)) : List (List Int) :=
  match cols with
  | [] => []
  | c :: rest =>
    let n := rest.foldl (fun m l => min m l.length) c.length
    (List.range n).map (fun k => cols.map (fun l => l.getD k 0))

/-- `Headers` from `indexables.py`: wraps the full header array. -/
structure Headers where
  tdb : HeaderArray

/-- `Headers.__getitem__` at an `int` (`_get_one`): the record of trace `i`,
as returned by the backing read `self._tdb[i]`. -/
def Headers.getOne (h : Headers) (i : Int) : Except String (List (String × Int)) :=
  match pyScalarPos (h.tdb.rows.length) i with
  | .error e => .error e
  | .ok p => .ok (tdbHeaderRecord h.tdb p.toNat)

/-- `Headers.__getitem__` at a slice, line for line from `_get_many`:
`headers = self._tdb[i]`; `keys = headers.keys()`;
`columns = [v.tolist() for v in headers.values()]`; result
`[dict(zip(keys, row)) for row in zip(*columns)]` (a `dict` built by `zip`
becomes an ordered association list). -/
def Headers.getMany (h : Headers) (a b c : Option Int) :
    Except String (List (List (String × Int))) :=
  match pySlicePositions (h.tdb.rows.length) a b c with
  | .error e => .error e
  | .ok ps =>
    let hs := tdbHeaderColumns h.tdb ps
    let keys := hs.map Prod.fst
    let columns := hs.map Prod.snd
    .ok ((zipStar columns).map (fun row => keys.zip row))

/-- `Traces` from `indexables.py`: holds the data array handle and the
headers array handle. -/
structure Traces where
  data_tdb : DenseArray2
  headers_tdb : HeaderArray

/-- `Traces.__len__`: `len(self._data_tdb)`, the trace-axis extent. -/
def Traces.len (t : Traces) : Nat := t.data_tdb.rows.length

/-- `Traces.__getitem__`: a direct delegation `self._data_tdb[i]` to the
backing array's native multi-dimensional slicing. -/
def Traces.getitem (t : Traces) (ix : PyIndex × PyIndex) : Except String NDRead :=
  denseRead2 t.data_tdb ix.1 ix.2

/-- The `Traces.headers` property: a `Headers` view over the same header
array. -/
def Traces.headers (t : Traces) : Headers := ⟨t.headers_tdb⟩

/-- A concrete 3-trace, 2-sample dataset for witnesses. -/
def tracesDemo : Traces :=
  ⟨⟨[[1, 2], [3, 4], [5, 6]]⟩, ⟨["f"], [[0], [0], [0]]⟩⟩

/-- A concrete two-field, three-trace header array for witnesses. -/
def headersDemo : Headers := ⟨⟨["a", "b"], [[1, 2], [3, 4], [5, 6]]⟩⟩

/-- Error taxonomy of reads against the backing storage (spec section 7). -/
inductive SegyError where
  | closedResource
  | indexError (msg : String)
  | valueError (msg : String)

/-- The state of one open dataset: the two array handles opened by
`tilesegy.open` (`headers` and `data`) with their open/closed status.
`Headers`, `Traces` and `Lines` share these handles by reference, so their
open flags live in this single place and `close` flips them for those
components at once; `Header` is the exception — `Traces.header` opens a
fresh handle of its own (see `tracesHeaderAt`). -/
structure DatasetState where
  headersOpen : Bool
  dataOpen : Bool
  headerArr : HeaderArray
  dataArr : DenseArray2

/-- `TileSegy.close` from `api.py`: `self._headers.close()` then
`self._data.close()`. -/
def TileSegy.close (st : DatasetState) : DatasetState :=
  { st with headersOpen := false, dataOpen := false }

/-- `Header` from `indexables.py`: a view over the header array restricted
to one named field.  The array it wraps is NOT one of the dataset's two
shared handles: `Traces.header` constructs it as
`Header(tiledb.DenseArray(self._headers_tdb.uri, attr=name))`, a fresh
handle opened at the headers URI, so it carries its own open flag. -/
structure Header where
  tdb : HeaderArray
  attr : String
  isOpen : Bool

/-- `Traces.header` from `indexables.py` lines 74-75: opens a fresh,
independent array handle at the headers URI (`tiledb.DenseArray(uri,
attr=name)`), restricted to the named attribute.  The new handle starts
open, and `TileSegy.close` — which closes only the two handles stored on
the dataset — never closes it. -/
def tracesHeaderAt (st : DatasetState) (attr : String) : Header :=
  ⟨st.headerArr, attr, true⟩

/-- `Header.__getitem__` at an `int` (`_get_one`:
`np.asscalar(self._tdb[i])`), through the handle the `Header` itself holds;
modelled from the spec for the closed case: the read fails with the
closed-resource condition exactly when that handle is closed (spec sections
5 and 7). -/
def Header.getOne (h : Header) (i : Int) : Except SegyError Int :=
  if h.isOpen then
    match pyScalarPos (h.tdb.rows.length : Int) i with
    | .error e => .error (.indexError e)
    | .ok p => .ok ((h.tdb.rows.getD p.toNat []).getD
        (h.tdb.fields.indexOf h.attr) 0)
  else .error .closedResource

/-- Modelled from the spec: `Headers.__getitem__` through the shared headers
handle, failing with the closed-resource condition after close. -/
def headersGetAt (st : DatasetState) (i : Int) :
    Except SegyError (List (String × Int)) :=
  if st.headersOpen then
    match Headers.getOne ⟨st.headerArr⟩ i with
    | .error e => .error (.indexError e)
    | .ok r => .ok r
  else .error .closedResource

/-- Modelled from the spec: `Traces.__getitem__` through the shared data
handle, failing with the closed-resource condition after close. -/
def tracesGetAt (st : DatasetState) (ix : PyIndex × PyIndex) :
    Except SegyError NDRead :=
  if st.dataOpen then
    match Traces.getitem ⟨st.dataArr, st.headerArr⟩ ix with
    | .error e => .error (.indexError e)
    | .ok r => .ok r
  else .error .closedResource

/-- Modelled from the spec: `Lines.__getitem__` (itself spec-modelled, see
`linesLabelGet`) through the shared data handle, failing with the
closed-resource condition after close. -/
def linesGetAt (st : DatasetState) (labels : List Int) (hne : labels ≠ [])
    (idx : PyIndex) : Except SegyError (List (List Int)) :=
  if st.dataOpen then
    match linesLabelGet labels hne (fun p => st.dataArr.rows.getD p []) idx with
    | .error e => .error (.valueError e)
    | .ok r => .ok r
  else .error .closedResource

/-- Binding of a Python call to `Lines.__init__` as declared in
`indexables.py`: after `self`, the parameters `data_tdb` and `headers_tdb`
are positional; `dimension` (required) and `name` (optional) are
keyword-only, following the bare `*` in the signature.  A call binds only if
it passes at most two positional arguments, uses only the declared keyword
names, and supplies `dimension`; otherwise Python raises `TypeError`. -/
def linesInitBind (numPositional : Nat) (keywords : List String) :
    Except String Unit :=
  if 2 < numPositional then
    .error ("TypeError: __init__ takes 3 positional arguments but more were given")
  else if (keywords.all (fun kw => kw == "dimension" || kw == "name")) = false then
    .error ("TypeError: __init__ got an unexpected keyword argument")
  else if (keywords.contains ("dimension")) = false then
    .error ("TypeError: __init__ missing required keyword-only argument dimension")
  else .ok ()

/-- The call `StructuredTileSegy.ilines` makes in `api.py` lines 73-76:
`Lines(self._data, self._headers, self._iline_labels, self.offsets,
dimension=0)` — four positional arguments (`xlines` at lines 78-82 and
`depths` at lines 84-92 make same-shaped calls). -/
def apiIlinesCallPositional : Nat := 4

/-- The keyword names of the `api.py` `ilines` call. -/
def apiIlinesCallKeywords : List String := ["dimension"]

/-- A metadata value attached to a backing array: a scalar or a tuple. -/
inductive MetaValue where
  | scalar (v : Int)
  | tuple (vs : List Int)

/-- A backing dense-array handle as `Lines` sees it: its shape and its
metadata mapping. -/
structure TDBArray where
  shape : List Nat
  meta : String → Option MetaValue

/-- `tdb_meta_list_to_numpy` from `indexables.py`: reads
`tdb.meta[meta_key]` (a missing key raises `KeyError`), wraps a non-tuple
value into a 1-tuple, and returns the value array. -/
def tdb_meta_list_to_numpy (tdb : TDBArray) (meta_key : String) :
    Except String (List Int) :=
  match tdb.meta meta_key with
  | none => .error ("KeyError")
  | some (.scalar v) => .ok [v]
  | some (.tuple vs) => .ok vs

/-- `Lines` from `indexables.py`: the data handle, the headers handle, the
designated dimension `_dim` and the optional metadata name `_name` of the
label list. -/
structure Lines where
  data_tdb : TDBArray
  headers_tdb : TDBArray
  dim : Nat
  name : Option String

/-- `Lines.__len__`: `self._data_tdb.shape[self._dim]`. -/
def Lines.len (l : Lines) : Nat := l.data_tdb.shape.getD l.dim 0

/-- The `Lines.indexes` property: `tdb_meta_list_to_numpy(self._data_tdb,
self._name)` when `self._name is not None`, else `np.arange(len(self))`. -/
def Lines.indexes (l : Lines) : Except String (List Int) :=
  match l.name with
  | some n => tdb_meta_list_to_numpy l.data_tdb n
  | none => .ok ((List.range l.len).map (fun (k : Nat) => (k : Int)))

/-- A concrete structured `Lines` view (inline axis of a 4×3×1×50 data
array with labels 100, 102, 104, 106). -/
def linesDemo : Lines :=
  ⟨⟨[4, 3, 1, 50],
    fun key => if key = "ilines" then some (.tuple [100, 102, 104, 106]) else none⟩,
   ⟨[12], fun _ => none⟩, 0, some ("ilines")⟩

/-! ## Theorems -/

theorem intRangeUpAux_congr : ∀ (f g : Nat) (start stop step : Int),
    (stop - start).toNat ≤ f → (stop - start).toNat ≤ g →
    intRangeUpAux f start stop step = intRangeUpAux g start stop step := by
  intro f
  induction f with
  | zero =>
    intro g start stop step hf hg
    cases g with
    | zero => rfl
    | succ g =>
      simp only [intRangeUpAux]
      rw [if_neg (by omega)]
  | succ f ih =>
    intro g start stop step hf hg
    cases g with
    | zero =>
      simp only [intRangeUpAux]
      rw [if_neg (by omega)]
    | succ g =>
      simp only [intRangeUpAux]
      by_cases h : 0 < step ∧ start < stop
      · rw [if_pos h, if_pos h, ih g (start + step) stop step (by omega) (by omega)]
      · rw [if_neg h, if_neg h]

theorem intRangeUp_unfold (start stop step : Int) :
    intRangeUp start stop step =
      if 0 < step ∧ start < stop then start :: intRangeUp (start + step) stop step
      else [] := by
  by_cases h : 0 < step ∧ start < stop
  · rw [if_pos h]
    unfold intRangeUp
    obtain ⟨n, hn⟩ : ∃ n, (stop - start).toNat = n + 1 := ⟨(stop - start).toNat - 1, by omega⟩
    rw [hn]
    simp only [intRangeUpAux, if_pos h]
    rw [intRangeUpAux_congr n ((stop - (start + step)).toNat) _ _ _ (by omega) (by omega)]
  · rw [if_neg h]
    unfold intRangeUp
    cases hn : (stop - start).toNat with
    | zero => rfl
    | succ n => simp only [intRangeUpAux]; rw [if_neg h]

theorem intRangeDownAux_congr : ∀ (f g : Nat) (start stop step : Int),
    (start - stop).toNat ≤ f → (start - stop).toNat ≤ g →
    intRangeDownAux f start stop step = intRangeDownAux g start stop step := by
  intro f
  induction f with
  | zero =>
    intro g start stop step hf hg
    cases g with
    | zero => rfl
    | succ g =>
      simp only [intRangeDownAux]
      rw [if_neg (by omega)]
  | succ f ih =>
    intro g start stop step hf hg
    cases g with
    | zero =>
      simp only [intRangeDownAux]
      rw [if_neg (by omega)]
    | succ g =>
      simp only [intRangeDownAux]
      by_cases h : step < 0 ∧ stop < start
      · rw [if_pos h, if_pos h, ih g (start + step) stop step (by omega) (by omega)]
      · rw [if_neg h, if_neg h]

theorem intRangeDown_unfold (start stop step : Int) :
    intRangeDown start stop step =
      if step < 0 ∧ stop < start then start :: intRangeDown (start + step) stop step
      else [] := by
  by_cases h : step < 0 ∧ stop < start
  · rw [if_pos h]
    unfold intRangeDown
    obtain ⟨n, hn⟩ : ∃ n, (start - stop).toNat = n + 1 := ⟨(start - stop).toNat - 1, by omega⟩
    rw [hn]
    simp only [intRangeDownAux, if_pos h]
    rw [intRangeDownAux_congr n ((start + step - stop).toNat) _ _ _ (by omega) (by omega)]
  · rw [if_neg h]
    unfold intRangeDown
    cases hn : (start - stop).toNat with
    | zero => rfl
    | succ n => simp only [intRangeDownAux]; rw [if_neg h]

theorem mem_intRangeUp {x step : Int} (hs : 0 < step) (stop : Int) :
    ∀ (n : Nat) (start : Int), (stop - start).toNat = n →
      (x ∈ intRangeUp start stop step ↔ ∃ k : Nat, x = start + step * k ∧ x < stop) := by
  intro n
  induction n using Nat.strong_induction_on with
  | _ n ih =>
    intro start hn
    rw [intRangeUp_unfold]
    by_cases h : start < stop
    · rw [if_pos ⟨hs, h⟩, List.mem_cons,
        ih ((stop - (start + step)).toNat) (by omega) (start + step) rfl]
      constructor
      · rintro (rfl | ⟨k, rfl, hk⟩)
        · exact ⟨0, by push_cast; ring, h⟩
        · exact ⟨k + 1, by push_cast; ring, hk⟩
      · rintro ⟨k, rfl, hk⟩
        cases k with
        | zero => left; push_cast; ring
        | succ k => right; exact ⟨k, by push_cast; ring, hk⟩
    · rw [if_neg (by tauto)]
      simp only [List.not_mem_nil, false_iff, not_exists]
      rintro k ⟨rfl, hk⟩
      have hk0 : (0 : Int) ≤ step * k := mul_nonneg (le_of_lt hs) (by positivity)
      linarith

theorem mem_intRangeDown {x step : Int} (hs : step < 0) (stop : Int) :
    ∀ (n : Nat) (start : Int), (start - stop).toNat = n →
      (x ∈ intRangeDown start stop step ↔ ∃ k : Nat, x = start + step * k ∧ stop < x) := by
  intro n
  induction n using Nat.strong_induction_on with
  | _ n ih =>
    intro start hn
    rw [intRangeDown_unfold]
    by_cases h : stop < start
    · rw [if_pos ⟨hs, h⟩, List.mem_cons,
        ih ((start + step - stop).toNat) (by omega) (start + step) rfl]
      constructor
      · rintro (rfl | ⟨k, rfl, hk⟩)
        · exact ⟨0, by push_cast; ring, h⟩
        · exact ⟨k + 1, by push_cast; ring, hk⟩
      · rintro ⟨k, rfl, hk⟩
        cases k with
        | zero => left; push_cast; ring
        | succ k => right; exact ⟨k, by push_cast; ring, hk⟩
    · rw [if_neg (by tauto)]
      simp only [List.not_mem_nil, false_iff, not_exists]
      rintro k ⟨rfl, hk⟩
      have hk0 : step * k ≤ 0 := mul_nonpos_of_nonpos_of_nonneg (le_of_lt hs) (by positivity)
      linarith

theorem pairwise_intRangeUp {step : Int} (hs : 0 < step) (stop : Int) :
    ∀ (n : Nat) (start : Int), (stop - start).toNat = n →
      (intRangeUp start stop step).Pairwise (· < ·) := by
  intro n
  induction n using Nat.strong_induction_on with
  | _ n ih =>
    intro start hn
    rw [intRangeUp_unfold]
    by_cases h : start < stop
    · rw [if_pos ⟨hs, h⟩]
      refine List.pairwise_cons.2 ⟨?_, ih ((stop - (start + step)).toNat) (by omega) _ rfl⟩
      intro y hy
      obtain ⟨k, rfl, -⟩ :=
        (mem_intRangeUp hs stop ((stop - (start + step)).toNat) (start + step) rfl).1 hy
      have hk0 : (0 : Int) ≤ step * k := mul_nonneg (le_of_lt hs) (by positivity)
      linarith
    · rw [if_neg (by tauto)]
      exact List.Pairwise.nil

theorem pairwise_intRangeDown {step : Int} (hs : step < 0) (stop : Int) :
    ∀ (n : Nat) (start : Int), (start - stop).toNat = n →
      (intRangeDown start stop step).Pairwise (fun a b => b < a) := by
  intro n
  induction n using Nat.strong_induction_on with
  | _ n ih =>
    intro start hn
    rw [intRangeDown_unfold]
    by_cases h : stop < start
    · rw [if_pos ⟨hs, h⟩]
      refine List.pairwise_cons.2 ⟨?_, ih ((start + step - stop).toNat) (by omega) _ rfl⟩
      intro y hy
      obtain ⟨k, rfl, -⟩ :=
        (mem_intRangeDown hs stop ((start + step - stop).toNat) (start + step) rfl).1 hy
      have hk0 : step * k ≤ 0 := mul_nonpos_of_nonpos_of_nonneg (le_of_lt hs) (by positivity)
      linarith
    · rw [if_neg (by tauto)]
      exact List.Pairwise.nil

theorem intRangeUp_one (b : Int) :
    ∀ (n : Nat) (a : Int), (b - a).toNat = n →
      intRangeUp a b 1 = (List.range n).map (fun (k : Nat) => a + (k : Int)) := by
  intro n
  induction n with
  | zero =>
    intro a hn
    rw [intRangeUp_unfold, if_neg (by omega)]
    simp
  | succ n ih =>
    intro a hn
    rw [intRangeUp_unfold, if_pos (by omega), ih (a + 1) (by omega),
      List.range_succ_eq_map, List.map_cons, List.map_map]
    congr 1
    · push_cast; ring
    · apply List.map_congr_left
      intro k hk
      simp only [Function.comp_apply]
      push_cast
      ring

theorem foldl_min_le_init : ∀ (l : List Int) (a : Int), l.foldl min a ≤ a := by
  intro l
  induction l with
  | nil => intro a; exact le_refl a
  | cons x xs ih =>
    intro a
    exact le_trans (ih (min a x)) (min_le_left a x)

theorem foldl_min_le_of_mem :
    ∀ (l : List Int) (a x : Int), x ∈ l → l.foldl min a ≤ x := by
  intro l
  induction l with
  | nil => intro a x hx; cases hx
  | cons y ys ih =>
    intro a x hx
    rcases List.mem_cons.1 hx with rfl | hx
    · exact le_trans (foldl_min_le_init ys (min a x)) (min_le_right a x)
    · exact ih (min a y) x hx

theorem foldl_min_eq_init_or_mem :
    ∀ (l : List Int) (a : Int), l.foldl min a = a ∨ l.foldl min a ∈ l := by
  intro l
  induction l with
  | nil => intro a; left; rfl
  | cons y ys ih =>
    intro a
    rcases ih (min a y) with h | h
    · rcases min_cases a y with ⟨hm, -⟩ | ⟨hm, -⟩
      · left; simp only [List.foldl_cons]; rw [h, hm]
      · right; simp only [List.foldl_cons]; rw [h, hm]; exact List.mem_cons_self y ys
    · right; exact List.mem_cons_of_mem y h

theorem listMin_le_of_mem {l : List Int} {x : Int} (hx : x ∈ l) : listMin l ≤ x := by
  cases l with
  | nil => cases hx
  | cons y ys =>
    rcases List.mem_cons.1 hx with rfl | hx
    · exact foldl_min_le_init ys x
    · exact foldl_min_le_of_mem ys y x hx

theorem listMin_mem {l : List Int} (h : l ≠ []) : listMin l ∈ l := by
  cases l with
  | nil => exact absurd rfl h
  | cons y ys =>
    rcases foldl_min_eq_init_or_mem ys y with h1 | h1
    · rw [listMin, h1]; exact List.mem_cons_self y ys
    · exact List.mem_cons_of_mem y h1

theorem init_le_foldl_max : ∀ (l : List Int) (a : Int), a ≤ l.foldl max a := by
  intro l
  induction l with
  | nil => intro a; exact le_refl a
  | cons x xs ih =>
    intro a
    exact le_trans (le_max_left a x) (ih (max a x))

theorem le_foldl_max_of_mem :
    ∀ (l : List Int) (a x : Int), x ∈ l → x ≤ l.foldl max a := by
  intro l
  induction l with
  | nil => intro a x hx; cases hx
  | cons y ys ih =>
    intro a x hx
    rcases List.mem_cons.1 hx with rfl | hx
    · exact le_trans (le_max_right a x) (init_le_foldl_max ys (max a x))
    · exact ih (max a y) x hx

theorem foldl_max_eq_init_or_mem :
    ∀ (l : List Int) (a : Int), l.foldl max a = a ∨ l.foldl max a ∈ l := by
  intro l
  induction l with
  | nil => intro a; left; rfl
  | cons y ys ih =>
    intro a
    rcases ih (max a y) with h | h
    · rcases max_cases a y with ⟨hm, -⟩ | ⟨hm, -⟩
      · left; simp only [List.foldl_cons]; rw [h, hm]
      · right; simp only [List.foldl_cons]; rw [h, hm]; exact List.mem_cons_self y ys
    · right; exact List.mem_cons_of_mem y h

theorem le_listMax_of_mem {l : List Int} {x : Int} (hx : x ∈ l) : x ≤ listMax l := by
  cases l with
  | nil => cases hx
  | cons y ys =>
    rcases List.mem_cons.1 hx with rfl | hx
    · exact init_le_foldl_max ys x
    · exact le_foldl_max_of_mem ys y x hx

theorem listMax_mem {l : List Int} (h : l ≠ []) : listMax l ∈ l := by
  cases l with
  | nil => exact absurd rfl h
  | cons y ys =>
    rcases foldl_max_eq_init_or_mem ys y with h1 | h1
    · rw [listMax, h1]; exact List.mem_cons_self y ys
    · exact List.mem_cons_of_mem y h1

theorem listMin_le_listMax {l : List Int} (h : l ≠ []) : listMin l ≤ listMax l :=
  le_trans (listMin_le_of_mem (listMin_mem h)) (le_listMax_of_mem (listMin_mem h))

example : FilteredRange.getitem ⟨[5, 3, 9], by decide⟩ (.int 5) = .ok [5] := by rfl

example : FilteredRange.getitem ⟨[5, 3, 9], by decide⟩ (.int 4) = .ok [] := by rfl

example : FilteredRange.getitem ⟨[5, 3, 9], by decide⟩ (.int (-3)) = .ok [3, 5] := by rfl

example : FilteredRange.getitem ⟨[5, 3, 9], by decide⟩ (.slice none none (some 1)) =
    .ok [3, 5, 9] := by rfl

example : FilteredRange.getitem ⟨[5, 3, 9], by decide⟩ (.slice none none (some (-1))) =
    .ok [9, 5, 3] := by rfl

example : FilteredRange.getitem ⟨[0, 1, 2], by decide⟩ (.slice none none (some (-1))) =
    .ok [] := by rfl

example : FilteredRange.getitem ⟨[100, 102, 104, 106], by decide⟩ (.int 102) =
    .ok [102] := by rfl

example : FilteredRange.getitem ⟨[100, 102, 104, 106], by decide⟩
    (.slice (some 102) (some 106) none) = .ok [102, 104] := by rfl

theorem intRangeUp_single (a : Int) : intRangeUp a (a + 1) 1 = [a] := by
  rw [intRangeUp_unfold, if_pos ⟨by norm_num, by omega⟩, intRangeUp_unfold,
    if_neg (by omega)]

theorem intRangeUp_nil {a b s : Int} (h : b ≤ a) : intRangeUp a b s = [] := by
  rw [intRangeUp_unfold, if_neg (by omega)]

/-- Basic consequences of the `FilteredRange` non-emptiness invariant. -/
theorem filteredRange_bounds (fr : FilteredRange) :
    fr.minVal ∈ fr.members ∧ (fr.maxVal - 1) ∈ fr.members ∧
      ∀ m ∈ fr.members, fr.minVal ≤ m ∧ m ≤ fr.maxVal - 1 := by
  refine ⟨listMin_mem fr.nonempty, ?_, ?_⟩
  · show listMax fr.members + 1 - 1 ∈ fr.members
    have := listMax_mem fr.nonempty
    simpa using this
  · intro m hm
    constructor
    · exact listMin_le_of_mem hm
    · show m ≤ listMax fr.members + 1 - 1
      have := le_listMax_of_mem hm
      omega

/-- Unfolding of `FilteredRange.getitem` for a slice with a positive step:
only the start default applies. -/
theorem getitem_slice_pos (fr : FilteredRange) (a b : Option Int) {s : Int}
    (hs : 0 < s) :
    fr.getitem (.slice a b (some s)) =
      match pySliceIndices
          (some (match a with
                 | none => fr.minVal
                 | some v => if v < fr.minVal then fr.minVal else v))
          b (some s) fr.maxVal with
      | .error e => .error e
      | .ok (x, y, z) =>
          .ok ((intRange x y z).filter (fun v => fr.members.contains v)) := by
  simp only [FilteredRange.getitem]
  rw [decide_eq_true hs]
  rfl

/-- Unfolding of `FilteredRange.getitem` for a slice with a non-positive
step: only the stop default applies. -/
theorem getitem_slice_neg (fr : FilteredRange) (a b : Option Int) {s : Int}
    (hs : ¬ 0 < s) :
    fr.getitem (.slice a b (some s)) =
      match pySliceIndices a
          (some (match b with
                 | none => fr.minVal - 1
                 | some v => if v < fr.minVal - 1 then fr.minVal - 1 else v))
          (some s) fr.maxVal with
      | .error e => .error e
      | .ok (x, y, z) =>
          .ok ((intRange x y z).filter (fun v => fr.members.contains v)) := by
  simp only [FilteredRange.getitem]
  rw [decide_eq_false hs]
  rfl

/-- C2 (amended): for a `FilteredRange` over a non-empty set of nonnegative
members and a nonnegative scalar `i`, `lookup(i)` returns the one-element
sequence `[i]` when `i` is a member and the empty sequence otherwise.
(Unrestricted integers falsify the original claim: Python's slice
normalization wraps the negative bound `i + 1`, see the counterexample.) -/
theorem filteredRange_scalar_lookup (fr : FilteredRange) (i : Int)
    (hm : ∀ m ∈ fr.members, 0 ≤ m) (hi : 0 ≤ i) :
    fr.getitem (.int i) = .ok (if i ∈ fr.members then [i] else []) := by
  obtain ⟨hminmem, hmaxmem, hbound⟩ := filteredRange_bounds fr
  have hmin0 : 0 ≤ fr.minVal := hm _ hminmem
  have hminmax : fr.minVal ≤ fr.maxVal - 1 := (hbound _ hminmem).2
  simp only [FilteredRange.getitem]
  have hs0 : ¬ ((none : Option Int) = some 0) := by simp
  have hlen : ¬ fr.maxVal < 0 := by omega
  simp only [pySliceIndices, if_neg hs0, if_neg hlen, Option.getD_none]
  norm_num
  by_cases hmem : i ∈ fr.members
  · have h1 : fr.minVal ≤ i := (hbound _ hmem).1
    have h2 : i ≤ fr.maxVal - 1 := (hbound _ hmem).2
    rw [if_neg (by omega : ¬ i < fr.minVal), if_neg (by omega : ¬ i < 0),
      if_neg (by omega : ¬ i + 1 < 0), if_pos hmem]
    have hstart : min i fr.maxVal = i := by omega
    have hstop : min (i + 1) fr.maxVal = i + 1 := by omega
    rw [hstart, hstop]
    simp only [intRange, if_pos (by norm_num : (0:Int) < 1), intRangeUp_single]
    simp [List.filter, hmem]
  · rw [if_neg hmem]
    by_cases hlt : i < fr.minVal
    · rw [if_pos hlt, if_neg (by omega : ¬ fr.minVal < 0), if_neg (by omega : ¬ i + 1 < 0)]
      have hstart : min fr.minVal fr.maxVal = fr.minVal := by omega
      have hstop : min (i + 1) fr.maxVal = i + 1 := by omega
      rw [hstart, hstop]
      simp only [intRange, if_pos (by norm_num : (0:Int) < 1)]
      rw [intRangeUp_nil (show (i + 1 : Int) ≤ fr.minVal by omega)]
      simp
    · rw [if_neg hlt, if_neg (by omega : ¬ i < 0), if_neg (by omega : ¬ i + 1 < 0)]
      by_cases hhi : i ≤ fr.maxVal - 1
      · have hstart : min i fr.maxVal = i := by omega
        have hstop : min (i + 1) fr.maxVal = i + 1 := by omega
        rw [hstart, hstop]
        simp only [intRange, if_pos (by norm_num : (0:Int) < 1), intRangeUp_single]
        simp [List.filter, hmem]
      · have hstart : min i fr.maxVal = fr.maxVal := by omega
        have hstop : min (i + 1) fr.maxVal = fr.maxVal := by omega
        rw [hstart, hstop]
        simp only [intRange, if_pos (by norm_num : (0:Int) < 1)]
        rw [intRangeUp_nil (le_refl fr.maxVal)]
        simp

/-- Witness for C2: the label set `{5, 3, 9}` with the member `5` and the
non-member `4`. -/
theorem filteredRange_scalar_lookup_witness :
    FilteredRange.getitem frDemo (.int 5) = .ok [5] ∧
      FilteredRange.getitem frDemo (.int 4) = .ok [] := by
  constructor
  · have h := filteredRange_scalar_lookup frDemo 5 (by decide) (by decide)
    simpa using h
  · have h := filteredRange_scalar_lookup frDemo 4 (by decide) (by decide)
    simpa using h

/-- Counterexample for C2 as stated over all integers: on the member set
`{5, 3, 9}`, looking up the non-member `-3` returns `[3, 5]` (Python wraps
the slice bound `-3 + 1 = -2` to `8`), not the empty sequence the claim
requires. -/
theorem filteredRange_scalar_lookup_counterexample :
    FilteredRange.getitem ⟨[5, 3, 9], by decide⟩ (.int (-3)) = .ok [3, 5] ∧
      ([5, 3, 9] : List Int).contains (-3) = false := ⟨rfl, rfl⟩

/-- C3 (amended): over a member set of nonnegative labels, an ascending
`lookup(slice(None, None, s))` yields exactly the members reachable from
`min(M)` by stride `s`, strictly increasing; over positive labels
(`min(M) ≥ 1`), a descending step `s < 0` yields exactly the members
reachable from `max(M)` downward by stride `|s|`, strictly decreasing; in
particular `{5, 3, 9}` yields `3, 5, 9` for step `1` and `9, 5, 3` for step
`-1`.  (A member set containing `0` falsifies the descending half of the
original claim: the defaulted stop `min(M) - 1 = -1` is wrapped by Python's
slice normalization, see the counterexample.) -/
theorem filteredRange_direction_symmetry (fr : FilteredRange) (s : Int) :
    ((∀ m ∈ fr.members, 0 ≤ m) → 0 < s →
      ∃ L, fr.getitem (.slice none none (some s)) = .ok L ∧
        L.Pairwise (· < ·) ∧
        ∀ x, x ∈ L ↔ x ∈ fr.members ∧ ∃ k : Nat, x = fr.minVal + s * k) ∧
    ((∀ m ∈ fr.members, 1 ≤ m) → s < 0 →
      ∃ L, fr.getitem (.slice none none (some s)) = .ok L ∧
        L.Pairwise (fun a b => b < a) ∧
        ∀ x, x ∈ L ↔ x ∈ fr.members ∧ ∃ k : Nat, x = (fr.maxVal - 1) + s * k) ∧
    FilteredRange.getitem ⟨[5, 3, 9], by decide⟩ (.slice none none (some 1)) =
      .ok [3, 5, 9] ∧
    FilteredRange.getitem ⟨[5, 3, 9], by decide⟩ (.slice none none (some (-1))) =
      .ok [9, 5, 3] := by
  obtain ⟨hminmem, hmaxmem, hbound⟩ := filteredRange_bounds fr
  have hminmax : fr.minVal ≤ fr.maxVal - 1 := (hbound _ hminmem).2
  refine ⟨?_, ?_, rfl, rfl⟩
  · intro hm hs
    have hmin0 : 0 ≤ fr.minVal := hm _ hminmem
    have heval : pySliceIndices (some fr.minVal) none (some s) fr.maxVal =
        .ok (fr.minVal, fr.maxVal, s) := by
      have h1 : ¬ ((some s : Option Int) = some 0) := by simp; omega
      have h2 : ¬ fr.maxVal < 0 := by omega
      have h3 : ¬ s < 0 := by omega
      have h4 : ¬ fr.minVal < 0 := by omega
      have h5 : min fr.minVal fr.maxVal = fr.minVal := by omega
      simp only [pySliceIndices, if_neg h1, if_neg h2, Option.getD_some, if_neg h3,
        if_neg h4, h5]
    refine ⟨(intRange fr.minVal fr.maxVal s).filter (fun v => fr.members.contains v),
      ?_, ?_, ?_⟩
    · rw [getitem_slice_pos fr none none hs]
      simp only [heval]
    · simp only [intRange, if_pos hs]
      exact (pairwise_intRangeUp hs fr.maxVal _ fr.minVal rfl).sublist
        (List.filter_sublist _)
    · intro x
      simp only [intRange, if_pos hs]
      rw [List.mem_filter, mem_intRangeUp hs fr.maxVal _ fr.minVal rfl]
      constructor
      · rintro ⟨⟨k, hxk, -⟩, hcont⟩
        exact ⟨List.elem_iff.1 hcont, k, hxk⟩
      · rintro ⟨hxm, k, hxk⟩
        exact ⟨⟨k, hxk, by have := (hbound _ hxm).2; omega⟩, List.elem_iff.2 hxm⟩
  · intro hm hs
    have hmin1 : 1 ≤ fr.minVal := hm _ hminmem
    have heval : pySliceIndices none (some (fr.minVal - 1)) (some s) fr.maxVal =
        .ok (fr.maxVal - 1, fr.minVal - 1, s) := by
      have h1 : ¬ ((some s : Option Int) = some 0) := by simp; omega
      have h2 : ¬ fr.maxVal < 0 := by omega
      have h4 : ¬ fr.minVal - 1 < 0 := by omega
      have h5 : min (fr.minVal - 1) (fr.maxVal - 1) = fr.minVal - 1 := by omega
      simp only [pySliceIndices, if_neg h1, if_neg h2, Option.getD_some, if_pos hs,
        if_neg h4, h5]
    refine ⟨(intRange (fr.maxVal - 1) (fr.minVal - 1) s).filter
        (fun v => fr.members.contains v), ?_, ?_, ?_⟩
    · rw [getitem_slice_neg fr none none (by omega)]
      simp only [heval]
    · simp only [intRange, if_neg (by omega : ¬ (0:Int) < s), if_pos hs]
      exact (pairwise_intRangeDown hs (fr.minVal - 1) _ (fr.maxVal - 1) rfl).sublist
        (List.filter_sublist _)
    · intro x
      simp only [intRange, if_neg (by omega : ¬ (0:Int) < s), if_pos hs]
      rw [List.mem_filter, mem_intRangeDown hs (fr.minVal - 1) _ (fr.maxVal - 1) rfl]
      constructor
      · rintro ⟨⟨k, hxk, -⟩, hcont⟩
        exact ⟨List.elem_iff.1 hcont, k, hxk⟩
      · rintro ⟨hxm, k, hxk⟩
        exact ⟨⟨k, hxk, by have := (hbound _ hxm).1; omega⟩, List.elem_iff.2 hxm⟩

/-- Witness for C3 at the spec's scenario set `{5, 3, 9}` with step `1`. -/
theorem filteredRange_direction_symmetry_witness :
    ∃ L, FilteredRange.getitem frDemo (.slice none none (some 1)) = .ok L ∧
      L.Pairwise (· < ·) ∧
      ∀ x, x ∈ L ↔ x ∈ frDemo.members ∧ ∃ k : Nat, x = frDemo.minVal + 1 * k :=
  (filteredRange_direction_symmetry frDemo 1).1 (by decide) (by decide)

/-- Counterexample for C3 as stated over all integer member sets: for
`M = {0, 1, 2}` and step `-1` the code returns the empty sequence (the
defaulted stop `min(M) - 1 = -1` wraps to `max(M)` under Python slice
normalization), although the member `2 = max(M)` is reachable from `max(M)`
by stride `1`, so the claimed traversal `2, 1, 0` is not produced. -/
theorem filteredRange_direction_symmetry_counterexample :
    FilteredRange.getitem ⟨[0, 1, 2], by decide⟩ (.slice none none (some (-1))) =
      .ok [] ∧
    ([0, 1, 2] : List Int).contains 2 = true := ⟨rfl, rfl⟩

/-- C4: on every range descriptor, `FilteredRange.__getitem__` computes
exactly the procedure the spec describes — start/stop defaulting by step
direction, normalization against `max(members) + 1`, then the
membership-filtered traversal in range order. -/
theorem filteredRange_defaulting_normalization (fr : FilteredRange)
    (a b c : Option Int) :
    fr.getitem (.slice a b c) = specRangeLookup fr a b c := by
  cases c with
  | none =>
    cases a with
    | none => rfl
    | some v =>
      by_cases hv : v < fr.minVal <;>
        simp [FilteredRange.getitem, specRangeLookup, stepPosOrNone, stepNeg,
          boundNoneOrLt, hv]
  | some s =>
    rcases lt_trichotomy s 0 with hs | hs | hs
    · have hns : ¬ 0 < s := by omega
      cases b with
      | none =>
        simp [FilteredRange.getitem, specRangeLookup, stepPosOrNone, stepNeg,
          boundNoneOrLt, hs, hns]
      | some w =>
        by_cases hw : w < fr.minVal - 1 <;>
          simp [FilteredRange.getitem, specRangeLookup, stepPosOrNone, stepNeg,
            boundNoneOrLt, hs, hns, hw]
    · subst hs
      cases a <;> cases b <;>
        simp [FilteredRange.getitem, specRangeLookup, stepPosOrNone, stepNeg,
          boundNoneOrLt, pySliceIndices]
    · have hns : ¬ s < 0 := by omega
      cases a with
      | none =>
        simp [FilteredRange.getitem, specRangeLookup, stepPosOrNone, stepNeg,
          boundNoneOrLt, hs, hns]
      | some v =>
        by_cases hv : v < fr.minVal <;>
          simp [FilteredRange.getitem, specRangeLookup, stepPosOrNone, stepNeg,
            boundNoneOrLt, hs, hns, hv]

/-- C10: constructing a `FilteredRange` from an empty collection fails
(Python's `min` raises `ValueError`), and every successfully constructed
`FilteredRange` carries the supplied non-empty member set, whose minimum and
maximum are well defined: `_min_val` is a member and a lower bound, and
`_max_val - 1` is a member and an upper bound. -/
theorem filteredRange_init_invariant :
    FilteredRange.init [] = none ∧
    ∀ (ms : List Int) (fr : FilteredRange), FilteredRange.init ms = some fr →
      fr.members = ms ∧ ms ≠ [] ∧ fr.minVal ∈ fr.members ∧
        (fr.maxVal - 1) ∈ fr.members ∧
        ∀ m ∈ fr.members, fr.minVal ≤ m ∧ m ≤ fr.maxVal - 1 := by
  refine ⟨rfl, ?_⟩
  intro ms fr h
  unfold FilteredRange.init at h
  split at h
  · exact absurd h (by simp)
  · rename_i hne
    cases h
    obtain ⟨h1, h2, h3⟩ := filteredRange_bounds ⟨ms, hne⟩
    exact ⟨rfl, hne, h1, h2, h3⟩

/-- Witness for C10 at the concrete member list `[5, 3, 9]`. -/
theorem filteredRange_init_invariant_witness :
    frDemo.members = [5, 3, 9] ∧ ([5, 3, 9] : List Int) ≠ [] ∧
      frDemo.minVal ∈ frDemo.members ∧ (frDemo.maxVal - 1) ∈ frDemo.members ∧
      ∀ m ∈ frDemo.members, frDemo.minVal ≤ m ∧ m ≤ frDemo.maxVal - 1 :=
  filteredRange_init_invariant.2 [5, 3, 9] frDemo rfl

/-- C1: for the inline label list `[100, 102, 104, 106]`, indexing by the
single label `102` returns the dense-array row at position 1, and indexing by
`slice(102, 106)` returns the rows at positions 1 and 2 (the stop label 106
excluded), the resolution going through `FilteredRange` over the labels. -/
theorem lines_label_resolution {α : Type} (row : Nat → α) :
    linesLabelGet [100, 102, 104, 106] (by decide) row (.int 102) =
      .ok [row 1] ∧
    linesLabelGet [100, 102, 104, 106] (by decide) row
      (.slice (some 102) (some 106) none) = .ok [row 1, row 2] :=
  ⟨rfl, rfl⟩

theorem pyScalarPos_ok {len i : Int} (h0 : 0 ≤ i) (hl : i < len) :
    pyScalarPos len i = .ok i := by
  simp only [pyScalarPos]
  rw [if_neg (show ¬ i < 0 by omega)]
  rw [if_pos (show 0 ≤ i ∧ i < len by omega)]

theorem pySlicePositions_ok {c : Option Int} (hc : c ≠ some 0) {len : Int}
    (hlen : 0 ≤ len) (a b : Option Int) :
    ∃ ps, pySlicePositions len a b c = .ok ps := by
  unfold pySlicePositions pySliceIndices
  rw [if_neg hc, if_neg (by omega)]
  exact ⟨_, rfl⟩

/-- C5: shape reduction of `Traces.__getitem__`: two scalar indices produce a
0-D scalar; a scalar and a range (either order) produce a 1-D vector; two
ranges produce a 2-D block whose shape is (selected trace count, selected
sample count). -/
theorem traces_shape_reduction (t : Traces) (ti si : Int) (a b c d e f : Option Int)
    (hti : 0 ≤ ti ∧ ti < (t.data_tdb.rows.length : Int))
    (hsi : 0 ≤ si ∧ si < ((t.data_tdb.rows.headD []).length : Int))
    (hc : c ≠ some 0) (hf : f ≠ some 0) :
    (∃ v, t.getitem (.int ti, .int si) = .ok (.scalar v)) ∧
    (∃ l, t.getitem (.int ti, .slice d e f) = .ok (.vec l)) ∧
    (∃ l, t.getitem (.slice a b c, .int si) = .ok (.vec l)) ∧
    (∃ tp sp m,
      pySlicePositions (t.data_tdb.rows.length : Int) a b c = .ok tp ∧
      pySlicePositions ((t.data_tdb.rows.headD []).length : Int) d e f = .ok sp ∧
      t.getitem (.slice a b c, .slice d e f) = .ok (.mat m) ∧
      m.length = tp.length ∧ ∀ r ∈ m, r.length = sp.length) := by
  have hts : pyScalarPos (t.data_tdb.rows.length : Int) ti = .ok ti :=
    pyScalarPos_ok hti.1 hti.2
  have hss : pyScalarPos ((t.data_tdb.rows.headD []).length : Int) si = .ok si :=
    pyScalarPos_ok hsi.1 hsi.2
  obtain ⟨tp, htp⟩ :=
    pySlicePositions_ok hc (Int.natCast_nonneg t.data_tdb.rows.length) a b
  obtain ⟨sp, hsp⟩ :=
    pySlicePositions_ok hf (Int.natCast_nonneg (t.data_tdb.rows.headD []).length) d e
  refine ⟨?_, ?_, ?_, ?_⟩
  · exact ⟨_, by simp only [Traces.getitem, denseRead2, hts, hss]; rfl⟩
  · exact ⟨_, by simp only [Traces.getitem, denseRead2, hts, hsp]; rfl⟩
  · exact ⟨_, by simp only [Traces.getitem, denseRead2, htp, hss]; rfl⟩
  · refine ⟨tp, sp, tp.map (fun p => sp.map
      (fun q => (t.data_tdb.rows.getD p.toNat []).getD q.toNat 0)),
      htp, hsp, ?_, by simp, ?_⟩
    · simp only [Traces.getitem, denseRead2, htp, hsp]
      rfl
    · intro r hr
      obtain ⟨p, -, rfl⟩ := List.mem_map.1 hr
      simp

/-- Witness for C5 on a concrete 3×2 dataset. -/
theorem traces_shape_reduction_witness :
    (∃ v, tracesDemo.getitem (.int 1, .int 0) = .ok (.scalar v)) ∧
    (∃ l, tracesDemo.getitem (.int 1, .slice none none none) = .ok (.vec l)) ∧
    (∃ l, tracesDemo.getitem (.slice none none none, .int 0) = .ok (.vec l)) ∧
    (∃ tp sp m,
      pySlicePositions (tracesDemo.data_tdb.rows.length : Int) none none none
        = .ok tp ∧
      pySlicePositions ((tracesDemo.data_tdb.rows.headD []).length : Int)
        none none none = .ok sp ∧
      tracesDemo.getitem (.slice none none none, .slice none none none)
        = .ok (.mat m) ∧
      m.length = tp.length ∧ ∀ r ∈ m, r.length = sp.length) :=
  traces_shape_reduction tracesDemo 1 0 none none none none none none
    (by decide) (by decide) (by decide) (by decide)

theorem map_getD_range (l : List Int) :
    (List.range l.length).map (fun j => l.getD j 0) = l := by
  apply List.ext_getElem (by simp)
  intro n h1 h2
  simp only [List.getElem_map, List.getElem_range]
  exact List.getD_eq_getElem l 0 h2

theorem foldl_min_length_const : ∀ (rest : List (List Int)) (a : Nat),
    (∀ l ∈ rest, l.length = a) → rest.foldl (fun m l => min m l.length) a = a := by
  intro rest
  induction rest with
  | nil => intro a h; rfl
  | cons l ls ih =>
    intro a h
    have hl : l.length = a := h l (List.mem_cons_self _ _)
    simp only [List.foldl_cons, hl, min_self]
    exact ih a (fun x hx => h x (List.mem_cons_of_mem _ hx))

theorem zipStar_eq_of_const_length (cols : List (List Int)) (n0 : Nat)
    (hne : cols ≠ []) (hlen : ∀ l ∈ cols, l.length = n0) :
    zipStar cols =
      (List.range n0).map (fun k => cols.map (fun l => l.getD k 0)) := by
  cases cols with
  | nil => exact absurd rfl hne
  | cons c rest =>
    simp only [zipStar]
    rw [hlen c (List.mem_cons_self _ _),
      foldl_min_length_const rest n0 (fun l hl => hlen l (List.mem_cons_of_mem _ hl))]

/-- Closed form of `Headers._get_many` on an in-bounds trace slice
`[i, j)`: one record per selected trace, each the backing record in declared
field order. -/
theorem headers_getMany_closed (h : Headers) (i j : Nat)
    (hwf : ∀ r ∈ h.tdb.rows, r.length = h.tdb.fields.length)
    (hfne : h.tdb.fields ≠ [])
    (hij : i ≤ j) (hj : j ≤ h.tdb.rows.length) :
    h.getMany (some (i : Int)) (some (j : Int)) none =
      .ok ((List.range (j - i)).map (fun m => tdbHeaderRecord h.tdb (i + m))) := by
  have h1 : ¬ ((none : Option Int) = some 0) := by simp
  have h2 : ¬ (h.tdb.rows.length : Int) < 0 := by omega
  have h3 : ¬ (i : Int) < 0 := by omega
  have h4 : ¬ (j : Int) < 0 := by omega
  have h5 : min (i : Int) (h.tdb.rows.length : Int) = (i : Int) := by omega
  have h6 : min (j : Int) (h.tdb.rows.length : Int) = (j : Int) := by omega
  have hpos : pySlicePositions (h.tdb.rows.length : Int) (some (i : Int))
      (some (j : Int)) none
      = .ok ((List.range (j - i)).map (fun (m : Nat) => (i : Int) + (m : Int))) := by
    unfold pySlicePositions
    simp only [pySliceIndices, if_neg h1, if_neg h2, Option.getD_none, h3, h4,
      if_false]
    norm_num
    rw [h5, h6]
    simp only [intRange, if_pos (show (0:Int) < 1 by norm_num)]
    rw [intRangeUp_one (j : Int) (j - i) (i : Int) (by omega)]
  unfold Headers.getMany
  rw [hpos]
  show Except.ok _ = _
  set ps : List Int := (List.range (j - i)).map (fun (m : Nat) => (i : Int) + (m : Int))
    with hps
  have hpslen : ps.length = j - i := by simp [hps]
  have hpsget : ∀ (m : Nat) (hm : m < ps.length), ps[m] = (i : Int) + (m : Int) := by
    intro m hm
    simp [hps]
  have hkeys : (tdbHeaderColumns h.tdb ps).map Prod.fst = h.tdb.fields := by
    apply List.ext_getElem (by simp [tdbHeaderColumns])
    intro n hn1 hn2
    simp [tdbHeaderColumns, List.getElem_mapIdx]
  have hcolslen : ((tdbHeaderColumns h.tdb ps).map Prod.snd).length
      = h.tdb.fields.length := by
    simp [tdbHeaderColumns]
  have hcolslen2 : (tdbHeaderColumns h.tdb ps).length = h.tdb.fields.length := by
    simp [tdbHeaderColumns]
  have hcols : ∀ (n : Nat) (hn : n < ((tdbHeaderColumns h.tdb ps).map Prod.snd).length),
      ((tdbHeaderColumns h.tdb ps).map Prod.snd)[n]
        = ps.map (fun p => (h.tdb.rows.getD p.toNat []).getD n 0) := by
    intro n hn
    simp [tdbHeaderColumns, List.getElem_mapIdx]
  have hconstlen : ∀ l ∈ (tdbHeaderColumns h.tdb ps).map Prod.snd,
      l.length = ps.length := by
    intro l hl
    obtain ⟨n, hn, hget⟩ := List.mem_iff_getElem.1 hl
    rw [← hget, hcols n hn]
    simp
  have hcne : (tdbHeaderColumns h.tdb ps).map Prod.snd ≠ [] := by
    intro hnil
    have := hcolslen
    rw [hnil] at this
    exact hfne (List.eq_nil_of_length_eq_zero this.symm)
  rw [zipStar_eq_of_const_length _ ps.length hcne hconstlen, hkeys, List.map_map,
    hpslen]
  apply congrArg
  apply List.map_congr_left
  intro m hm
  have hmlt : m < j - i := List.mem_range.1 hm
  have hrowlt : i + m < h.tdb.rows.length := by omega
  have hrowmem : h.tdb.rows.getD (i + m) [] ∈ h.tdb.rows := by
    rw [List.getD_eq_getElem _ _ hrowlt]
    exact List.getElem_mem hrowlt
  have hrowlen : (h.tdb.rows.getD (i + m) []).length = h.tdb.fields.length :=
    hwf _ hrowmem
  simp only [Function.comp_apply]
  unfold tdbHeaderRecord
  apply congrArg
  apply List.ext_getElem
  · simp only [List.length_map]
    rw [hcolslen2, hrowlen]
  intro jj hjj1 hjj2
  have hjjf : jj < h.tdb.fields.length := by
    rw [← hcolslen2]
    simpa using hjj1
  rw [List.getElem_map]
  rw [hcols jj (by rw [hcolslen]; exact hjjf)]
  have hmlt2 : m < ps.length := by omega
  rw [List.getD_eq_getElem _ _ (by simpa using hmlt2), List.getElem_map]
  have hpm : ps[m] = (i : Int) + (m : Int) := hpsget m hmlt2
  rw [hpm]
  have htn : ((i : Int) + (m : Int)).toNat = i + m := by omega
  rw [htn]
  rw [List.getD_eq_getElem _ _ (show jj < (h.tdb.rows.getD (i + m) []).length by
    rw [hrowlen]; exact hjjf)]

/-- C6: Headers round-trip: `Headers.get(i)` has its keys in exactly the
declared field order; every record of `Headers.get(slice(i, j))` has the
same key order; element `k` of the slice equals `Headers.get(i + k)`; and
each record reproduces the backing array's per-trace values exactly, no
field reordered or dropped. -/
theorem headers_roundtrip (h : Headers) (i j k : Nat)
    (hwf : ∀ r ∈ h.tdb.rows, r.length = h.tdb.fields.length)
    (hfne : h.tdb.fields ≠ [])
    (hij : i ≤ j) (hj : j ≤ h.tdb.rows.length) (hk : k < j - i) :
    ∃ recs, h.getMany (some (i : Int)) (some (j : Int)) none = .ok recs ∧
      recs.length = j - i ∧
      h.getOne ((i : Int) + (k : Int)) = .ok (recs.getD k []) ∧
      (recs.getD k []).map Prod.fst = h.tdb.fields ∧
      recs.getD k [] = h.tdb.fields.zip (h.tdb.rows.getD (i + k) []) := by
  have hrecsk :
      ((List.range (j - i)).map (fun m => tdbHeaderRecord h.tdb (i + m))).getD k []
        = tdbHeaderRecord h.tdb (i + k) := by
    rw [List.getD_eq_getElem _ _ (by simpa using hk), List.getElem_map,
      List.getElem_range]
  have hlt : i + k < h.tdb.rows.length := by omega
  have hmem : h.tdb.rows.getD (i + k) [] ∈ h.tdb.rows := by
    rw [List.getD_eq_getElem _ _ hlt]
    exact List.getElem_mem hlt
  refine ⟨_, headers_getMany_closed h i j hwf hfne hij hj, by simp, ?_, ?_, ?_⟩
  · have hscal : pyScalarPos (h.tdb.rows.length : Int) ((i : Int) + (k : Int))
        = .ok ((i : Int) + (k : Int)) :=
      pyScalarPos_ok (by omega) (by omega)
    unfold Headers.getOne
    rw [hscal]
    show Except.ok (tdbHeaderRecord h.tdb ((i : Int) + (k : Int)).toNat) = _
    have htn : ((i : Int) + (k : Int)).toNat = i + k := by omega
    rw [htn, hrecsk]
  · rw [hrecsk]
    unfold tdbHeaderRecord
    apply List.map_fst_zip
    rw [hwf _ hmem]
  · rw [hrecsk]
    unfold tdbHeaderRecord
    rfl

/-- Witness for C6 at trace slice `[0, 2)` and offset `k = 1`. -/
theorem headers_roundtrip_witness :
    ∃ recs,
      headersDemo.getMany (some ((0 : Nat) : Int)) (some ((2 : Nat) : Int)) none
        = .ok recs ∧
      recs.length = 2 - 0 ∧
      headersDemo.getOne (((0 : Nat) : Int) + ((1 : Nat) : Int))
        = .ok (recs.getD 1 []) ∧
      (recs.getD 1 []).map Prod.fst = headersDemo.tdb.fields ∧
      recs.getD 1 [] = headersDemo.tdb.fields.zip (headersDemo.tdb.rows.getD (0 + 1) []) :=
  headers_roundtrip headersDemo 0 2 1 (by decide) (by decide) (by decide)
    (by decide) (by decide)

/-- C7 (code bug): after `TileSegy.close`, `Headers.get`, `Traces.get` and
`Lines.get` — which go through the dataset's two shared handles — do fail
with the closed-resource condition, but `Header.get` does not: the `Header`
view that `Traces.header` returned before the close holds the fresh handle
it opened at the headers URI (`indexables.py` line 75), `close` only closes
the two shared handles (`api.py` lines 47-49), and the later read therefore
SUCCEEDS, silently returning the stored field value instead of failing as
the claim (and the spec's lifecycle contract) requires.  `TileSegy.close st`
leaves the value `tracesHeaderAt st attr` untouched, exactly as the Python
close leaves the fresh `tiledb.DenseArray` open. -/
theorem closed_resource_divergence (st : DatasetState) (attr : String) (i : Int)
    (ix : PyIndex × PyIndex) (labels : List Int) (hne : labels ≠ [])
    (idx : PyIndex) (h0 : 0 ≤ i) (hlen : i < (st.headerArr.rows.length : Int)) :
    headersGetAt (TileSegy.close st) i = .error .closedResource ∧
    tracesGetAt (TileSegy.close st) ix = .error .closedResource ∧
    linesGetAt (TileSegy.close st) labels hne idx = .error .closedResource ∧
    Header.getOne (tracesHeaderAt st attr) i =
      .ok ((st.headerArr.rows.getD i.toNat []).getD
        (st.headerArr.fields.indexOf attr) 0) := by
  refine ⟨rfl, rfl, rfl, ?_⟩
  simp only [Header.getOne, tracesHeaderAt, if_pos rfl]
  rw [pyScalarPos_ok h0 hlen]
  rfl

/-- Witness for C7 on a concrete dataset state: after close, the shared-handle
reads fail with the closed-resource error while the `Traces.header` view
still reads the stored value `1`. -/
theorem closed_resource_divergence_witness :
    headersGetAt (TileSegy.close ⟨true, true, headersDemo.tdb, tracesDemo.data_tdb⟩)
        0 = .error .closedResource ∧
    tracesGetAt (TileSegy.close ⟨true, true, headersDemo.tdb, tracesDemo.data_tdb⟩)
        (.int 0, .int 0) = .error .closedResource ∧
    linesGetAt (TileSegy.close ⟨true, true, headersDemo.tdb, tracesDemo.data_tdb⟩)
        [5, 3, 9] (by decide) (.int 5) = .error .closedResource ∧
    Header.getOne
        (tracesHeaderAt ⟨true, true, headersDemo.tdb, tracesDemo.data_tdb⟩ ("a"))
        0 =
      .ok ((headersDemo.tdb.rows.getD (0 : Int).toNat []).getD
        (headersDemo.tdb.fields.indexOf ("a")) 0) :=
  closed_resource_divergence ⟨true, true, headersDemo.tdb, tracesDemo.data_tdb⟩
    ("a") 0 (.int 0, .int 0) [5, 3, 9] (by decide) (.int 5) (by decide) (by decide)

/-- C8 (code bug): `ilines` (likewise `xlines` and `depths`) passes four
positional arguments to `Lines.__init__`, which accepts only two positional
parameters (`dimension` and `name` are keyword-only), so the call raises
`TypeError` instead of constructing a `Lines` component. -/
theorem structured_lines_construction_raises :
    linesInitBind apiIlinesCallPositional apiIlinesCallKeywords =
      .error ("TypeError: __init__ takes 3 positional arguments but more were given") :=
  rfl

/-- C9: `indexes` returns the label list stored under the supplied name when
one is present, and the dense integer range `[0, axis length)` otherwise;
`len` always equals the data array's shape extent at the designated axis. -/
theorem lines_indexes_len (l : Lines) (labels : List Int) (n : String)
    (hdim : l.dim < l.data_tdb.shape.length) :
    (l.name = some n → l.data_tdb.meta n = some (.tuple labels) →
      l.indexes = .ok labels) ∧
    (l.name = none →
      l.indexes = .ok ((List.range l.len).map (fun (k : Nat) => (k : Int)))) ∧
    l.len = l.data_tdb.shape[l.dim] := by
  refine ⟨?_, ?_, ?_⟩
  · intro hn hm
    simp only [Lines.indexes, hn, tdb_meta_list_to_numpy, hm]
  · intro hn
    simp only [Lines.indexes, hn]
  · unfold Lines.len
    exact List.getD_eq_getElem _ _ hdim

/-- Witness for C9 on the concrete `Lines` view. -/
theorem lines_indexes_len_witness :
    linesDemo.indexes = .ok [100, 102, 104, 106] ∧ linesDemo.len = 4 :=
  ⟨(lines_indexes_len linesDemo [100, 102, 104, 106] ("ilines") (by decide)).1
      rfl rfl,
   rfl⟩
